import Mathlib

/-!
Verification development for the cognate matcher in `hw2.py` of
L3viathan/compmorph.  Words are modelled as `List Char`; frequency
tables as insertion-ordered association lists `List (List Char × Nat)`;
the floating-point infinity sentinel used for "no score yet" / "no
match" is modelled by `none : Option Nat`.
-/

set_option maxRecDepth 8192

namespace Hw2

/-- ASCII apostrophe, used by the Czech palatalisation replacements. -/
def apos : Char := Char.ofNat 39

/-- Lowercasing of a single character.  Models Python `str.lower`
restricted to the alphabets this program touches: ASCII letters and
the Cyrillic letters appearing in the transliteration table (plus Ё
and the historical І).  Every other character is left unchanged. -/
def lowerChar (c : Char) : Char :=
  if 'A' ≤ c ∧ c ≤ 'Z' then Char.ofNat (c.toNat + 32)
  else if c = 'Ё' then 'ё'
  else if c = 'І' then 'і'
  else if 'А' ≤ c ∧ c ≤ 'Я' then Char.ofNat (c.toNat + 32)
  else c

/-- The scientific-transliteration dict `tr` of `transliteration` in
`hw2.py`, as a lookup on the lowercased character `l` with the
`tr.get(l, orig)` fallback to the original character.  The Python
dict literal binds the key ь twice; the later binding (to ʹ) wins,
as in Python. -/
def trLookup (l orig : Char) : List Char :=
  match l with
  | 'а' => ['a']
  | 'б' => ['b']
  | 'в' => ['v']
  | 'г' => ['g']
  | 'д' => ['d']
  | 'е' => ['e']
  | 'ё' => ['ë']
  | 'ж' => ['ž']
  | 'з' => ['z']
  | 'и' => ['i']
  | 'і' => ['i']
  | 'й' => ['j']
  | 'к' => ['k']
  | 'л' => ['l']
  | 'м' => ['m']
  | 'н' => ['n']
  | 'о' => ['o']
  | 'п' => ['p']
  | 'р' => ['r']
  | 'с' => ['s']
  | 'т' => ['t']
  | 'у' => ['u']
  | 'ф' => ['f']
  | 'х' => ['x']
  | 'ц' => ['c']
  | 'ч' => ['č']
  | 'ш' => ['š']
  | 'щ' => ['š', 'č']
  | 'ъ' => ['ʺ']
  | 'ь' => ['ʹ']
  | 'ы' => ['y']
  | 'э' => ['è']
  | 'ю' => ['j', 'u']
  | 'я' => ['j', 'a']
  | _ => [orig]

/-- `tr.get(char.lower(), char)` for a single character. -/
def translitChar (c : Char) : List Char :=
  trLookup (lowerChar c) c

/-- `transliteration` of `hw2.py`: the join of the per-character
transliterations (`''.join(tr.get(char.lower(), char) for char in russian)`). -/
def transliteration : List Char → List Char
  | [] => []
  | c :: w => translitChar c ++ transliteration w

/-- Python `str.replace(pat, rep)` on character lists: replace every
non-overlapping occurrence of `pat`, scanning left to right.  (All
patterns used by `czech_processing` are non-empty; for an empty
pattern this function leaves the string unchanged, a case the program
never exercises.) -/
def listReplace (pat rep : List Char) : List Char → List Char
  | [] => []
  | a :: s =>
    if h : pat ≠ [] ∧ pat = (a :: s).take pat.length then
      rep ++ listReplace pat rep ((a :: s).drop pat.length)
    else
      a :: listReplace pat rep s
termination_by s => s.length
decreasing_by
  · simp only [List.length_drop, List.length_cons]
    have hp : 0 < pat.length := List.length_pos.mpr h.1
    omega
  · simp only [List.length_cons]; omega

/-- `czech_processing` of `hw2.py`: the fixed chain of
`str.replace` calls, applied in source order (the innermost
replacement here is the first one applied in the Python chain). -/
def czech_processing (word : List Char) : List Char :=
  listReplace ['ť'] ['t', apos]
    (listReplace ['ř'] ['r', apos]
      (listReplace ['ě'] ['e']
        (listReplace ['ď'] ['d', apos]
          (listReplace ['č'] ['c', apos]
            (listReplace ['ň'] ['n', apos]
              (listReplace ['c', 'h'] ['x']
                (listReplace ['ů'] ['u']
                  (listReplace ['ý'] ['y']
                    (listReplace ['é'] ['e']
                      (listReplace ['ú'] ['u']
                        (listReplace ['ó'] ['o']
                          (listReplace ['í'] ['i']
                            (listReplace ['á'] ['a'] word)))))))))))))

/-- `substitution_cost` of `hw2.py`: 0 for the fixed ordered pairs
(i,y), (g,h), (y,i), otherwise 1. -/
def substitution_cost (ruchar cschar : Char) : Nat :=
  if (ruchar, cschar) ∈ [('i', 'y'), ('g', 'h'), ('y', 'i')] then 0 else 1

/-- `levenshtein` of `hw2.py`: recursive edit distance over suffixes.
If either string is empty the result is `len(source) + len(target)`
(the length of the other string); matching leading characters are
free; otherwise the minimum of insert, delete (cost 1 each) and
substitute (cost from the table). -/
def levenshtein : List Char → List Char → Nat
  | [], target => target.length
  | a :: s, [] => (a :: s).length
  | a :: s, b :: t =>
    if a = b then levenshtein s t
    else
      min (levenshtein (a :: s) t + 1)
        (min (levenshtein s (b :: t) + 1)
          (levenshtein s t + substitution_cost a b))
termination_by s t => s.length + t.length
decreasing_by all_goals simp only [List.length_cons]; omega

/-- `abs(x - y)` on Python ints, for natural-number lengths. -/
def absDiff (a b : Nat) : Nat := (a - b) + (b - a)

/-- `n > best` where `best` is a number or the float infinity
(`none`): always false against infinity. -/
def gtInf (n : Nat) (best : Option Nat) : Bool :=
  match best with
  | none => false
  | some b => b < n

/-- `d < best` where `best` is a number or the float infinity
(`none`): always true against infinity. -/
def ltInf (d : Nat) (best : Option Nat) : Bool :=
  match best with
  | none => true
  | some b => d < b

/-- `best >= m` where `best` is a number or the float infinity
(`none`): always true for infinity. -/
def geInf (best : Option Nat) (m : Nat) : Bool :=
  match best with
  | none => true
  | some b => m ≤ b

/-- The candidate scan of `translate_words`: for each Czech candidate
in frequency order, skip it when the raw-length difference exceeds the
current best, otherwise compute the distance against the processed
candidate, keep it when strictly better, and stop the scan entirely on
an exact distance of 0. -/
def scanCandidates (r_trans : List Char) :
    List (List Char) → Option Nat → List Char → Option Nat × List Char
  | [], best, candidate => (best, candidate)
  | c_word :: rest, best, candidate =>
    if gtInf (absDiff c_word.length r_trans.length) best then
      scanCandidates r_trans rest best candidate
    else
      let dist := levenshtein r_trans (czech_processing c_word)
      let best2 := if ltInf dist best then some dist else best
      let candidate2 := if ltInf dist best then c_word else candidate
      if dist = 0 then (best2, candidate2)
      else scanCandidates r_trans rest best2 candidate2

/-- The per-source-word body of `translate_words`: transliterate the
Russian word, scan the candidates starting from `best = inf`,
`candidate = ''`, and apply the rejection rule
`best >= max(len(r_word), len(candidate))` on the raw words. -/
def translateWord (sorted_czech : List (List Char)) (r_word : List Char) :
    List Char × List Char × Option Nat :=
  let r_trans := transliteration r_word
  let scanned := scanCandidates r_trans sorted_czech none []
  if geInf scanned.1 (max r_word.length scanned.2.length) then (r_word, [], none)
  else (r_word, scanned.2, scanned.1)

/-- Stable descending insertion by count: an element is inserted after
every element with a strictly larger count and before ties, matching
the stability of Python `sorted` used by `Counter.most_common`. -/
def insertDesc (x : List Char × Nat) : List (List Char × Nat) → List (List Char × Nat)
  | [] => [x]
  | y :: ys => if x.2 < y.2 then y :: insertDesc x ys else x :: y :: ys

/-- `Counter.most_common()`: entries sorted by descending count;
Python's sort is stable, so ties keep the table's insertion order. -/
def most_common : List (List Char × Nat) → List (List Char × Nat)
  | [] => []
  | x :: xs => insertDesc x (most_common xs)

/-- `translate_words` of `hw2.py`: the Czech vocabulary is sorted once
by descending frequency; each of the `n` most frequent Russian words
is matched by `translateWord`. -/
def translate_words (russian czech : List (List Char × Nat)) (n : Nat) :
    List (List Char × List Char × Option Nat) :=
  let sorted_czech := (most_common czech).map Prod.fst
  ((most_common russian).take n).map (fun p => translateWord sorted_czech p.1)

/-- Does the list start with the character h? -/
def headH : List Char → Bool
  | [] => false
  | a :: _ => decide (a = 'h')

/-- Is the last character of the list c? -/
def lastC : List Char → Bool
  | [] => false
  | [a] => decide (a = 'c')
  | _ :: s => lastC s

/-- Does the list contain the two-character substring "ch"? -/
def hasCH : List Char → Bool
  | [] => false
  | a :: s => (decide (a = 'c') && headH s) || hasCH s

/-- Single-character `str.replace`: each occurrence of the character
`p` becomes the block `r`, every other character is kept. -/
def charExpand (p : Char) (r : List Char) : List Char → List Char
  | [] => []
  | a :: s => (if a = p then r else [a]) ++ charExpand p r s

lemma lev_nil_left (b : List Char) : levenshtein [] b = b.length := by
  simp [levenshtein]

lemma lev_nil_right (a : List Char) : levenshtein a [] = a.length := by
  cases a <;> simp [levenshtein]

lemma lev_cons_cons (a b : Char) (s t : List Char) :
    levenshtein (a :: s) (b :: t) =
      if a = b then levenshtein s t
      else
        min (levenshtein (a :: s) t + 1)
          (min (levenshtein s (b :: t) + 1)
            (levenshtein s t + substitution_cost a b)) := by
  rw [levenshtein]

lemma substitution_cost_le_one (a b : Char) : substitution_cost a b ≤ 1 := by
  unfold substitution_cost
  split <;> omega

lemma lev_le_sum_aux :
    ∀ (n : Nat) (a b : List Char), a.length + b.length ≤ n →
      levenshtein a b ≤ a.length + b.length := by
  intro n
  induction n with
  | zero =>
    intro a b h
    cases a with
    | nil => simp [levenshtein]
    | cons a s => simp only [List.length_cons] at h; omega
  | succ n ih =>
    intro a b h
    cases a with
    | nil => simp [levenshtein]
    | cons a s =>
      cases b with
      | nil => simp [lev_nil_right]
      | cons b t =>
        rw [lev_cons_cons]
        by_cases hab : a = b
        · rw [if_pos hab]
          have h3 := ih s t (by simp only [List.length_cons] at h ⊢; omega)
          simp only [List.length_cons]
          omega
        · rw [if_neg hab]
          have h1 := ih (a :: s) t (by simp only [List.length_cons] at h ⊢; omega)
          have h2 := ih s (b :: t) (by simp only [List.length_cons] at h ⊢; omega)
          have h3 := ih s t (by simp only [List.length_cons] at h ⊢; omega)
          have hc := substitution_cost_le_one a b
          simp only [List.length_cons] at h1 h2 h3 ⊢
          omega

lemma absdiff_le_lev_aux :
    ∀ (n : Nat) (a b : List Char), a.length + b.length ≤ n →
      absDiff a.length b.length ≤ levenshtein a b := by
  intro n
  induction n with
  | zero =>
    intro a b h
    cases a with
    | nil => simp [levenshtein, absDiff]
    | cons a s => simp only [List.length_cons] at h; omega
  | succ n ih =>
    intro a b h
    cases a with
    | nil => simp [levenshtein, absDiff]
    | cons a s =>
      cases b with
      | nil => simp [lev_nil_right, absDiff]
      | cons b t =>
        rw [lev_cons_cons]
        by_cases hab : a = b
        · rw [if_pos hab]
          have h3 := ih s t (by simp only [List.length_cons] at h ⊢; omega)
          simp only [absDiff, List.length_cons] at h3 ⊢
          omega
        · rw [if_neg hab]
          have h1 := ih (a :: s) t (by simp only [List.length_cons] at h ⊢; omega)
          have h2 := ih s (b :: t) (by simp only [List.length_cons] at h ⊢; omega)
          have h3 := ih s t (by simp only [List.length_cons] at h ⊢; omega)
          simp only [absDiff, List.length_cons] at h1 h2 h3 ⊢
          omega

/-- C4: the substitution cost is applied in the fixed
(sourceChar, targetChar) order and is not symmetrised:
`substitution_cost g h = 0` but `substitution_cost h g = 1`, so
`levenshtein "g" "h" = 0` while `levenshtein "h" "g" = 1`, and the
distance function is asymmetric. -/
theorem levenshtein_asymmetric :
    substitution_cost 'g' 'h' = 0 ∧ substitution_cost 'h' 'g' = 1 ∧
    levenshtein ['g'] ['h'] = 0 ∧ levenshtein ['h'] ['g'] = 1 ∧
    ∃ a b : List Char, levenshtein a b ≠ levenshtein b a := by
  have hgh : levenshtein ['g'] ['h'] = 0 := by
    simp [levenshtein, substitution_cost]
  have hhg : levenshtein ['h'] ['g'] = 1 := by
    simp [levenshtein, substitution_cost]
  exact ⟨by decide, by decide, hgh, hhg, ⟨['g'], ['h'], by rw [hgh, hhg]; omega⟩⟩

/-- C5: for every pair of strings, the levenshtein distance is at
least the absolute difference of the lengths, so the matcher's
length-difference pruning bound is a valid lower bound on the
distance between the two strings it is actually computed on. -/
theorem levenshtein_lower_bound (a b : List Char) :
    absDiff a.length b.length ≤ levenshtein a b :=
  absdiff_le_lev_aux (a.length + b.length) a b le_rfl

/-- C6: for every pair of strings, the levenshtein distance is at
most the sum of the lengths (delete everything, insert everything). -/
theorem levenshtein_upper_bound (a b : List Char) :
    levenshtein a b ≤ a.length + b.length :=
  lev_le_sum_aux (a.length + b.length) a b le_rfl

/-- C7: when at least one string is empty the levenshtein distance
is the length of the other string; the substitution cost table plays
no role in this base case. -/
theorem levenshtein_empty_base (a b : List Char) :
    levenshtein [] b = b.length ∧ levenshtein a [] = a.length :=
  ⟨lev_nil_left b, lev_nil_right a⟩

/-- C8: the levenshtein distance of every word to itself is 0. -/
theorem levenshtein_self (w : List Char) : levenshtein w w = 0 := by
  induction w with
  | nil => simp [levenshtein]
  | cons a s ih => simp [lev_cons_cons, ih]

lemma translit_abc : transliteration ['a', 'b', 'c'] = ['a', 'b', 'c'] := by decide

lemma translit_xx : transliteration ['х', 'х'] = ['x', 'x'] := by decide

/-- C2: after the candidate scan, the rejection rule is applied with
an inclusive boundary on the raw (un-normalised) source word and the
raw best candidate: when the scanned best satisfies
`best >= max(len(w), len(candidate))` the sentinel `(w, "", inf)` is
emitted, otherwise `(w, candidate, best)`; in particular the source
word "abc" of length 3, whose best candidate "def" has length 3 at
distance exactly 3, yields the sentinel. -/
theorem rejection_rule_inclusive (czech : List (List Char)) (w : List Char)
    (best : Option Nat) (cand : List Char)
    (h : scanCandidates (transliteration w) czech none [] = (best, cand)) :
    (geInf best (max w.length cand.length) = true →
        translateWord czech w = (w, [], none)) ∧
    (geInf best (max w.length cand.length) = false →
        translateWord czech w = (w, cand, best)) ∧
    levenshtein (transliteration ['a', 'b', 'c'])
        (czech_processing ['d', 'e', 'f']) = 3 ∧
    scanCandidates (transliteration ['a', 'b', 'c']) [['d', 'e', 'f']] none [] =
      (some 3, ['d', 'e', 'f']) ∧
    translateWord [['d', 'e', 'f']] ['a', 'b', 'c'] = (['a', 'b', 'c'], [], none) := by
  refine ⟨?_, ?_, ?_, ?_, ?_⟩
  · intro hge
    simp only [translateWord, h, hge, if_true]
  · intro hge
    simp only [translateWord, h, hge, Bool.false_eq_true, if_false]
  · simp [translit_abc, czech_processing, listReplace,
      levenshtein, substitution_cost, apos]
  · simp [scanCandidates, translit_abc, czech_processing,
      listReplace, levenshtein, substitution_cost, gtInf, ltInf, absDiff, apos]
  · simp [translateWord, scanCandidates, translit_abc,
      czech_processing, listReplace, levenshtein, substitution_cost, gtInf, ltInf,
      geInf, absDiff, apos]

theorem rejection_rule_inclusive_witness :
    translateWord [['d', 'e', 'f']] ['a', 'b', 'c'] = (['a', 'b', 'c'], [], none) :=
  (rejection_rule_inclusive [['d', 'e', 'f']] ['a', 'b', 'c'] (some 3) ['d', 'e', 'f']
    (by simp [scanCandidates, translit_abc,
      czech_processing, listReplace, levenshtein, substitution_cost, gtInf, ltInf,
      absDiff, apos])).1 (by decide)

/-- C9: `translate_words` is deterministic: two runs on identical
frequency tables (given in the same insertion order, which fixes the
tie-break between equal counts) and identical `n` produce identical
output sequences. -/
theorem translate_words_deterministic (r1 c1 : List (List Char × Nat)) (n1 : Nat)
    (r2 c2 : List (List Char × Nat)) (n2 : Nat)
    (hr : r1 = r2) (hc : c1 = c2) (hn : n1 = n2) :
    translate_words r1 c1 n1 = translate_words r2 c2 n2 := by
  rw [hr, hc, hn]

theorem translate_words_deterministic_witness :
    translate_words [(['а'], 2)] [(['a'], 1)] 1 =
      translate_words [(['а'], 2)] [(['a'], 1)] 1 :=
  translate_words_deterministic [(['а'], 2)] [(['a'], 1)] 1 [(['а'], 2)] [(['a'], 1)] 1
    rfl rfl rfl

/-- C1 fails on the code: the pruning test uses the raw candidate
length while the distance is computed on the processed candidate, and
`czech_processing` shrinks "ch" to "x".  On the tables {хх: 1} and
{ax: 2, chch: 1} with n = 1 the scan first sets best = 1 via "ax",
then skips "chch" because `abs(4 - 2) > 1`, although the processed
form of "chch" is "xx", at distance 0 from the transliterated source
"xx"; the emitted non-sentinel score 1 is therefore not the minimum
of the distances over the whole target vocabulary. -/
theorem pruning_skips_better_candidate :
    translate_words [(['х', 'х'], 1)] [(['a', 'x'], 2), (['c', 'h', 'c', 'h'], 1)] 1 =
      [(['х', 'х'], ['a', 'x'], some 1)] ∧
    levenshtein (transliteration ['х', 'х'])
        (czech_processing ['c', 'h', 'c', 'h']) = 0 := by
  constructor
  · simp [translate_words, most_common, insertDesc, translateWord, scanCandidates,
      translit_xx, czech_processing, listReplace,
      levenshtein, substitution_cost, gtInf, ltInf, geInf, absDiff, apos]
  · simp [translit_xx, czech_processing, listReplace,
      levenshtein, substitution_cost, apos]

lemma trLookup_length (l orig : Char) : 1 ≤ (trLookup l orig).length := by
  unfold trLookup
  split <;> simp

lemma translitChar_length (c : Char) : 1 ≤ (translitChar c).length :=
  trLookup_length (lowerChar c) c

lemma transliteration_length (w : List Char) : w.length ≤ (transliteration w).length := by
  induction w with
  | nil => simp [transliteration]
  | cons c w ih =>
    have := translitChar_length c
    simp only [transliteration, List.length_append, List.length_cons]
    omega

lemma czech_processing_nil : czech_processing [] = [] := by
  simp [czech_processing, listReplace]

lemma dist_to_empty_candidate (r_trans : List Char) :
    levenshtein r_trans (czech_processing []) = r_trans.length := by
  rw [czech_processing_nil, lev_nil_right]

/-- Scan invariant: if the retained candidate is still the empty
word, then the retained best is either still infinity or the distance
of the source to the empty word. -/
lemma scan_inv (r_trans : List Char) :
    ∀ (cs : List (List Char)) (best0 : Option Nat) (cand0 : List Char),
      (cand0 = [] → best0 = none ∨ best0 = some r_trans.length) →
      (scanCandidates r_trans cs best0 cand0).2 = [] →
        (scanCandidates r_trans cs best0 cand0).1 = none ∨
        (scanCandidates r_trans cs best0 cand0).1 = some r_trans.length := by
  intro cs
  induction cs with
  | nil =>
    intro best0 cand0 h0 h
    simp only [scanCandidates] at h ⊢
    exact h0 h
  | cons c rest ih =>
    intro best0 cand0 h0
    simp only [scanCandidates]
    by_cases hskip : gtInf (absDiff c.length r_trans.length) best0 = true
    · simp only [hskip, if_true]
      exact ih best0 cand0 h0
    · simp only [Bool.not_eq_true] at hskip
      simp only [hskip, Bool.false_eq_true, if_false]
      by_cases hlt : ltInf (levenshtein r_trans (czech_processing c)) best0 = true
      · simp only [hlt, if_true]
        by_cases hz : levenshtein r_trans (czech_processing c) = 0
        · rw [if_pos hz]
          intro hc
          right
          have hc' : c = [] := hc
          show some (levenshtein r_trans (czech_processing c)) = some r_trans.length
          rw [hc', dist_to_empty_candidate]
        · rw [if_neg hz]
          refine ih (some (levenshtein r_trans (czech_processing c))) c ?_
          intro hc
          right
          rw [hc, dist_to_empty_candidate]
      · simp only [Bool.not_eq_true] at hlt
        simp only [hlt, Bool.false_eq_true, if_false]
        by_cases hz : levenshtein r_trans (czech_processing c) = 0
        · rw [if_pos hz]
          exact h0
        · rw [if_neg hz]
          exact ih best0 cand0 h0

lemma translateWord_empty_iff (czech : List (List Char)) (w : List Char) :
    ((translateWord czech w).2.1 = [] ↔ (translateWord czech w).2.2 = none) := by
  simp only [translateWord]
  by_cases hge : geInf (scanCandidates (transliteration w) czech none []).1
      (max w.length (scanCandidates (transliteration w) czech none []).2.length) = true
  · simp [hge]
  · simp only [Bool.not_eq_true] at hge
    simp only [hge, Bool.false_eq_true, if_false]
    constructor
    · intro hc
      exfalso
      rcases scan_inv (transliteration w) czech none [] (fun _ => Or.inl rfl) hc
        with h1 | h1
      · rw [h1] at hge
        simp [geInf] at hge
      · rw [hc, h1] at hge
        simp only [geInf, List.length_nil, Nat.max_zero, decide_eq_false_iff_not,
          not_le] at hge
        have := transliteration_length w
        omega
    · intro hb
      exfalso
      rw [hb] at hge
      simp [geInf] at hge

/-- C3: every triple yielded by `translate_words` has an empty
candidate exactly when its score is the infinity sentinel; and with
an empty target vocabulary every source word yields the sentinel. -/
theorem candidate_empty_iff_sentinel (russian czech : List (List Char × Nat)) (n : Nat)
    (e : List Char × List Char × Option Nat)
    (he : e ∈ translate_words russian czech n) :
    (e.2.1 = [] ↔ e.2.2 = none) ∧ (czech = [] → e.2.1 = [] ∧ e.2.2 = none) := by
  simp only [translate_words, List.mem_map] at he
  obtain ⟨p, hp, rfl⟩ := he
  constructor
  · exact translateWord_empty_iff _ _
  · intro hcz
    subst hcz
    simp [most_common, translateWord, scanCandidates, geInf]

lemma listReplace_single (p : Char) (r : List Char) :
    ∀ s, listReplace [p] r s = charExpand p r s := by
  intro s
  induction s with
  | nil => simp [listReplace, charExpand]
  | cons a s ih =>
    simp only [listReplace]
    by_cases hpa : p = a
    · subst hpa
      rw [dif_pos ⟨by simp, by simp⟩]
      simp [charExpand, ih]
    · have hap : a ≠ p := fun hh => hpa hh.symm
      rw [dif_neg (by simp [hpa])]
      simp [charExpand, ih, hap]

lemma mem_listReplace_aux (x : Char) (pat rep : List Char) :
    ∀ (n : Nat) (s : List Char), s.length ≤ n →
      x ∈ listReplace pat rep s → x ∈ rep ∨ x ∈ s := by
  intro n
  induction n with
  | zero =>
    intro s hs hx
    have hnil : s = [] := List.length_eq_zero.mp (Nat.le_zero.mp hs)
    subst hnil
    simp [listReplace] at hx
  | succ n ih =>
    intro s hs hx
    cases s with
    | nil => simp [listReplace] at hx
    | cons a s =>
      simp only [listReplace] at hx
      by_cases hc : pat ≠ [] ∧ pat = (a :: s).take pat.length
      · rw [dif_pos hc] at hx
        rcases List.mem_append.mp hx with h1 | h1
        · exact Or.inl h1
        · have hlen : ((a :: s).drop pat.length).length ≤ n := by
            have hp := List.length_pos.mpr hc.1
            simp only [List.length_drop, List.length_cons]
            simp only [List.length_cons] at hs
            omega
          rcases ih _ hlen h1 with h2 | h2
          · exact Or.inl h2
          · exact Or.inr (List.drop_subset _ _ h2)
      · rw [dif_neg hc] at hx
        rcases List.mem_cons.mp hx with h1 | h1
        · exact Or.inr (h1 ▸ List.mem_cons_self a s)
        · rcases ih s (by simp only [List.length_cons] at hs; omega) h1 with h2 | h2
          · exact Or.inl h2
          · exact Or.inr (List.mem_cons_of_mem a h2)

lemma mem_listReplace (x : Char) (pat rep s : List Char)
    (hx : x ∈ listReplace pat rep s) : x ∈ rep ∨ x ∈ s :=
  mem_listReplace_aux x pat rep s.length s le_rfl hx

lemma not_mem_listReplace_of (x : Char) (pat rep s : List Char)
    (hr : x ∉ rep) (hs : x ∉ s) : x ∉ listReplace pat rep s := by
  intro hx
  rcases mem_listReplace x pat rep s hx with h | h
  · exact hr h
  · exact hs h

lemma not_mem_charExpand_self (p : Char) (rep : List Char) (hp : p ∉ rep) :
    ∀ s, p ∉ charExpand p rep s := by
  intro s
  induction s with
  | nil => simp [charExpand]
  | cons a s ih =>
    simp only [charExpand, List.mem_append]
    rintro (h1 | h1)
    · by_cases hap : a = p
      · rw [if_pos hap] at h1
        exact hp h1
      · rw [if_neg hap] at h1
        simp only [List.mem_singleton] at h1
        exact hap h1.symm
    · exact ih h1

lemma not_mem_listReplace_self (p : Char) (rep : List Char) (hp : p ∉ rep)
    (s : List Char) : p ∉ listReplace [p] rep s := by
  rw [listReplace_single]
  exact not_mem_charExpand_self p rep hp s

lemma headH_append (xs ys : List Char) (h : xs ≠ []) :
    headH (xs ++ ys) = headH xs := by
  cases xs with
  | nil => exact absurd rfl h
  | cons a s => simp [headH]

lemma hasCH_append (xs ys : List Char) :
    hasCH (xs ++ ys) = (hasCH xs || (lastC xs && headH ys) || hasCH ys) := by
  induction xs with
  | nil => simp [hasCH, lastC]
  | cons a xs ih =>
    cases xs with
    | nil => simp [hasCH, lastC, headH]
    | cons b xs2 =>
      simp only [List.cons_append, hasCH, headH, lastC] at ih ⊢
      rw [ih]
      simp [Bool.or_assoc]

lemma charExpand_hasCH (p : Char) (rep : List Char) (hne : rep ≠ [])
    (h1 : hasCH rep = false) (h2 : headH rep = false) (h3 : lastC rep = false) :
    ∀ s, hasCH s = false →
      hasCH (charExpand p rep s) = false ∧
      (headH (charExpand p rep s) = true → headH s = true) := by
  intro s
  induction s with
  | nil =>
    intro _
    simp [charExpand, hasCH, headH]
  | cons a s ih =>
    intro hs
    have hs2 : hasCH s = false := by
      simp only [hasCH, Bool.or_eq_false_iff] at hs
      exact hs.2
    obtain ⟨ih1, ih2⟩ := ih hs2
    by_cases hap : a = p
    · constructor
      · show hasCH ((if a = p then rep else [a]) ++ charExpand p rep s) = false
        rw [if_pos hap, hasCH_append, h1, h3, ih1]
        simp
      · show headH ((if a = p then rep else [a]) ++ charExpand p rep s) = true →
          headH (a :: s) = true
        rw [if_pos hap, headH_append _ _ hne, h2]
        intro hh
        cases hh
    · constructor
      · show hasCH ((if a = p then rep else [a]) ++ charExpand p rep s) = false
        rw [if_neg hap, List.singleton_append]
        simp only [hasCH, Bool.or_eq_false_iff]
        refine ⟨?_, ih1⟩
        by_cases hac : a = 'c'
        · subst hac
          cases hh : headH (charExpand p rep s) with
          | false => simp [hh]
          | true =>
            exfalso
            have hh2 := ih2 hh
            simp [hasCH, hh2] at hs
        · simp [hac]
      · show headH ((if a = p then rep else [a]) ++ charExpand p rep s) = true →
          headH (a :: s) = true
        rw [if_neg hap, List.singleton_append]
        simp [headH]

lemma chStep_no :
    ∀ (n : Nat) (s : List Char), s.length ≤ n →
      hasCH (listReplace ['c', 'h'] ['x'] s) = false ∧
      (headH (listReplace ['c', 'h'] ['x'] s) = true → headH s = true) := by
  intro n
  induction n with
  | zero =>
    intro s hs
    have hnil : s = [] := List.length_eq_zero.mp (Nat.le_zero.mp hs)
    subst hnil
    simp [listReplace, hasCH, headH]
  | succ n ih =>
    intro s hs
    cases s with
    | nil => simp [listReplace, hasCH, headH]
    | cons a s =>
      cases s with
      | nil =>
        simp only [listReplace]
        rw [dif_neg (by simp)]
        simp [listReplace, hasCH, headH]
      | cons b s2 =>
        by_cases hm : a = 'c' ∧ b = 'h'
        · obtain ⟨ha, hb⟩ := hm
          subst ha
          subst hb
          rw [listReplace]
          rw [dif_pos ⟨by simp, by simp⟩]
          have hdrop : ('c' :: 'h' :: s2).drop (['c', 'h'] : List Char).length = s2 := rfl
          rw [hdrop, List.singleton_append]
          obtain ⟨g1, g2⟩ := ih s2
            (by simp only [List.length_cons] at hs ⊢; omega)
          constructor
          · simp only [hasCH, g1]
            simp [headH]
          · intro hh
            exfalso
            simp [headH] at hh
        · rw [listReplace]
          rw [dif_neg ?hcond]
          case hcond =>
            intro hcon
            obtain ⟨-, hcon2⟩ := hcon
            simp only [List.length_cons, List.length_nil, List.take_succ_cons,
              List.take_zero] at hcon2
            simp only [List.cons.injEq] at hcon2
            exact hm ⟨hcon2.1.symm, hcon2.2.1.symm⟩
          obtain ⟨g1, g2⟩ := ih (b :: s2)
            (by simp only [List.length_cons] at hs ⊢; omega)
          constructor
          · simp only [hasCH, Bool.or_eq_false_iff]
            refine ⟨?_, g1⟩
            by_cases hac : a = 'c'
            · subst hac
              cases hh : headH (listReplace ['c', 'h'] ['x'] (b :: s2)) with
              | false => simp [hh]
              | true =>
                exfalso
                have hh2 := g2 hh
                simp only [headH, decide_eq_true_eq] at hh2
                exact hm ⟨rfl, hh2⟩
            · simp [hac]
          · intro hh
            simp only [headH] at hh ⊢
            exact hh

lemma czech_processing_hasCH (w : List Char) :
    hasCH (czech_processing w) = false := by
  simp only [czech_processing, listReplace_single]
  refine (charExpand_hasCH 'ť' ['t', apos] (by decide) (by decide) (by decide)
    (by decide) _ ?_).1
  refine (charExpand_hasCH 'ř' ['r', apos] (by decide) (by decide) (by decide)
    (by decide) _ ?_).1
  refine (charExpand_hasCH 'ě' ['e'] (by decide) (by decide) (by decide)
    (by decide) _ ?_).1
  refine (charExpand_hasCH 'ď' ['d', apos] (by decide) (by decide) (by decide)
    (by decide) _ ?_).1
  refine (charExpand_hasCH 'č' ['c', apos] (by decide) (by decide) (by decide)
    (by decide) _ ?_).1
  refine (charExpand_hasCH 'ň' ['n', apos] (by decide) (by decide) (by decide)
    (by decide) _ ?_).1
  exact (chStep_no _ _ le_rfl).1

lemma notin_tcaron (w : List Char) : 'ť' ∉ czech_processing w := by
  simp only [czech_processing]
  exact not_mem_listReplace_self _ _ (by decide) _

lemma notin_rcaron (w : List Char) : 'ř' ∉ czech_processing w := by
  simp only [czech_processing]
  refine not_mem_listReplace_of _ _ _ _ (by decide) ?_
  exact not_mem_listReplace_self _ _ (by decide) _

lemma notin_ecaron (w : List Char) : 'ě' ∉ czech_processing w := by
  simp only [czech_processing]
  refine not_mem_listReplace_of _ _ _ _ (by decide) ?_
  refine not_mem_listReplace_of _ _ _ _ (by decide) ?_
  exact not_mem_listReplace_self _ _ (by decide) _

lemma notin_dcaron (w : List Char) : 'ď' ∉ czech_processing w := by
  simp only [czech_processing]
  refine not_mem_listReplace_of _ _ _ _ (by decide) ?_
  refine not_mem_listReplace_of _ _ _ _ (by decide) ?_
  refine not_mem_listReplace_of _ _ _ _ (by decide) ?_
  exact not_mem_listReplace_self _ _ (by decide) _

lemma notin_ccaron (w : List Char) : 'č' ∉ czech_processing w := by
  simp only [czech_processing]
  refine not_mem_listReplace_of _ _ _ _ (by decide) ?_
  refine not_mem_listReplace_of _ _ _ _ (by decide) ?_
  refine not_mem_listReplace_of _ _ _ _ (by decide) ?_
  refine not_mem_listReplace_of _ _ _ _ (by decide) ?_
  exact not_mem_listReplace_self _ _ (by decide) _

lemma notin_ncaron (w : List Char) : 'ň' ∉ czech_processing w := by
  simp only [czech_processing]
  refine not_mem_listReplace_of _ _ _ _ (by decide) ?_
  refine not_mem_listReplace_of _ _ _ _ (by decide) ?_
  refine not_mem_listReplace_of _ _ _ _ (by decide) ?_
  refine not_mem_listReplace_of _ _ _ _ (by decide) ?_
  refine not_mem_listReplace_of _ _ _ _ (by decide) ?_
  exact not_mem_listReplace_self _ _ (by decide) _

lemma notin_uring (w : List Char) : 'ů' ∉ czech_processing w := by
  simp only [czech_processing]
  refine not_mem_listReplace_of _ _ _ _ (by decide) ?_
  refine not_mem_listReplace_of _ _ _ _ (by decide) ?_
  refine not_mem_listReplace_of _ _ _ _ (by decide) ?_
  refine not_mem_listReplace_of _ _ _ _ (by decide) ?_
  refine not_mem_listReplace_of _ _ _ _ (by decide) ?_
  refine not_mem_listReplace_of _ _ _ _ (by decide) ?_
  refine not_mem_listReplace_of _ _ _ _ (by decide) ?_
  exact not_mem_listReplace_self _ _ (by decide) _

lemma notin_yacute (w : List Char) : 'ý' ∉ czech_processing w := by
  simp only [czech_processing]
  refine not_mem_listReplace_of _ _ _ _ (by decide) ?_
  refine not_mem_listReplace_of _ _ _ _ (by decide) ?_
  refine not_mem_listReplace_of _ _ _ _ (by decide) ?_
  refine not_mem_listReplace_of _ _ _ _ (by decide) ?_
  refine not_mem_listReplace_of _ _ _ _ (by decide) ?_
  refine not_mem_listReplace_of _ _ _ _ (by decide) ?_
  refine not_mem_listReplace_of _ _ _ _ (by decide) ?_
  refine not_mem_listReplace_of _ _ _ _ (by decide) ?_
  exact not_mem_listReplace_self _ _ (by decide) _

lemma notin_eacute (w : List Char) : 'é' ∉ czech_processing w := by
  simp only [czech_processing]
  refine not_mem_listReplace_of _ _ _ _ (by decide) ?_
  refine not_mem_listReplace_of _ _ _ _ (by decide) ?_
  refine not_mem_listReplace_of _ _ _ _ (by decide) ?_
  refine not_mem_listReplace_of _ _ _ _ (by decide) ?_
  refine not_mem_listReplace_of _ _ _ _ (by decide) ?_
  refine not_mem_listReplace_of _ _ _ _ (by decide) ?_
  refine not_mem_listReplace_of _ _ _ _ (by decide) ?_
  refine not_mem_listReplace_of _ _ _ _ (by decide) ?_
  refine not_mem_listReplace_of _ _ _ _ (by decide) ?_
  exact not_mem_listReplace_self _ _ (by decide) _

lemma notin_uacute (w : List Char) : 'ú' ∉ czech_processing w := by
  simp only [czech_processing]
  refine not_mem_listReplace_of _ _ _ _ (by decide) ?_
  refine not_mem_listReplace_of _ _ _ _ (by decide) ?_
  refine not_mem_listReplace_of _ _ _ _ (by decide) ?_
  refine not_mem_listReplace_of _ _ _ _ (by decide) ?_
  refine not_mem_listReplace_of _ _ _ _ (by decide) ?_
  refine not_mem_listReplace_of _ _ _ _ (by decide) ?_
  refine not_mem_listReplace_of _ _ _ _ (by decide) ?_
  refine not_mem_listReplace_of _ _ _ _ (by decide) ?_
  refine not_mem_listReplace_of _ _ _ _ (by decide) ?_
  refine not_mem_listReplace_of _ _ _ _ (by decide) ?_
  exact not_mem_listReplace_self _ _ (by decide) _

lemma notin_oacute (w : List Char) : 'ó' ∉ czech_processing w := by
  simp only [czech_processing]
  refine not_mem_listReplace_of _ _ _ _ (by decide) ?_
  refine not_mem_listReplace_of _ _ _ _ (by decide) ?_
  refine not_mem_listReplace_of _ _ _ _ (by decide) ?_
  refine not_mem_listReplace_of _ _ _ _ (by decide) ?_
  refine not_mem_listReplace_of _ _ _ _ (by decide) ?_
  refine not_mem_listReplace_of _ _ _ _ (by decide) ?_
  refine not_mem_listReplace_of _ _ _ _ (by decide) ?_
  refine not_mem_listReplace_of _ _ _ _ (by decide) ?_
  refine not_mem_listReplace_of _ _ _ _ (by decide) ?_
  refine not_mem_listReplace_of _ _ _ _ (by decide) ?_
  refine not_mem_listReplace_of _ _ _ _ (by decide) ?_
  exact not_mem_listReplace_self _ _ (by decide) _

lemma notin_iacute (w : List Char) : 'í' ∉ czech_processing w := by
  simp only [czech_processing]
  refine not_mem_listReplace_of _ _ _ _ (by decide) ?_
  refine not_mem_listReplace_of _ _ _ _ (by decide) ?_
  refine not_mem_listReplace_of _ _ _ _ (by decide) ?_
  refine not_mem_listReplace_of _ _ _ _ (by decide) ?_
  refine not_mem_listReplace_of _ _ _ _ (by decide) ?_
  refine not_mem_listReplace_of _ _ _ _ (by decide) ?_
  refine not_mem_listReplace_of _ _ _ _ (by decide) ?_
  refine not_mem_listReplace_of _ _ _ _ (by decide) ?_
  refine not_mem_listReplace_of _ _ _ _ (by decide) ?_
  refine not_mem_listReplace_of _ _ _ _ (by decide) ?_
  refine not_mem_listReplace_of _ _ _ _ (by decide) ?_
  refine not_mem_listReplace_of _ _ _ _ (by decide) ?_
  exact not_mem_listReplace_self _ _ (by decide) _

lemma notin_aacute (w : List Char) : 'á' ∉ czech_processing w := by
  simp only [czech_processing]
  refine not_mem_listReplace_of _ _ _ _ (by decide) ?_
  refine not_mem_listReplace_of _ _ _ _ (by decide) ?_
  refine not_mem_listReplace_of _ _ _ _ (by decide) ?_
  refine not_mem_listReplace_of _ _ _ _ (by decide) ?_
  refine not_mem_listReplace_of _ _ _ _ (by decide) ?_
  refine not_mem_listReplace_of _ _ _ _ (by decide) ?_
  refine not_mem_listReplace_of _ _ _ _ (by decide) ?_
  refine not_mem_listReplace_of _ _ _ _ (by decide) ?_
  refine not_mem_listReplace_of _ _ _ _ (by decide) ?_
  refine not_mem_listReplace_of _ _ _ _ (by decide) ?_
  refine not_mem_listReplace_of _ _ _ _ (by decide) ?_
  refine not_mem_listReplace_of _ _ _ _ (by decide) ?_
  refine not_mem_listReplace_of _ _ _ _ (by decide) ?_
  exact not_mem_listReplace_self _ _ (by decide) _

/-- C10: the output of `czech_processing` never contains the
substring "ch" and never contains any of the replaced characters
á í ó ú é ý ů ň č ď ě ř ť: every replacement in the chain rewrites
all occurrences of its pattern, and no later replacement in the chain
reintroduces a pattern handled earlier. -/
theorem czech_processing_invariant (w : List Char) :
    hasCH (czech_processing w) = false ∧
    ∀ c ∈ (['á', 'í', 'ó', 'ú', 'é', 'ý', 'ů', 'ň', 'č', 'ď', 'ě', 'ř', 'ť'] :
      List Char), c ∉ czech_processing w := by
  refine ⟨czech_processing_hasCH w, ?_⟩
  intro c hc
  simp only [List.mem_cons, List.not_mem_nil, or_false] at hc
  rcases hc with rfl | rfl | rfl | rfl | rfl | rfl | rfl | rfl | rfl | rfl | rfl | rfl | rfl
  · exact notin_aacute w
  · exact notin_iacute w
  · exact notin_oacute w
  · exact notin_uacute w
  · exact notin_eacute w
  · exact notin_yacute w
  · exact notin_uring w
  · exact notin_ncaron w
  · exact notin_ccaron w
  · exact notin_dcaron w
  · exact notin_ecaron w
  · exact notin_rcaron w
  · exact notin_tcaron w

theorem czech_processing_invariant_witness :
    hasCH (czech_processing ['c', 'h', 'á']) = false ∧
    'á' ∉ czech_processing ['c', 'h', 'á'] :=
  ⟨(czech_processing_invariant ['c', 'h', 'á']).1,
   (czech_processing_invariant ['c', 'h', 'á']).2 'á' (by decide)⟩

theorem candidate_empty_iff_sentinel_witness :
    (((['а'], [], none) : List Char × List Char × Option Nat).2.1 = [] ↔
      ((['а'], [], none) : List Char × List Char × Option Nat).2.2 = none) ∧
    (([] : List (List Char × Nat)) = [] →
      ((['а'], [], none) : List Char × List Char × Option Nat).2.1 = [] ∧
      ((['а'], [], none) : List Char × List Char × Option Nat).2.2 = none) :=
  candidate_empty_iff_sentinel [(['а'], 1)] [] 1 (['а'], [], none)
    (by simp [translate_words, most_common, insertDesc, translateWord,
      scanCandidates, geInf])

end Hw2
